import Mathlib

set_option maxHeartbeats 1000000

/-!
Shallow embedding of `scripts/fetch_github_healthcare_repos.py`: the keyword
classifier, the paginated collector with its insertion-ordered accumulator,
the CSV exporter, the summary exporter and the `main` control flow, together
with theorems settling the specification claims about them.
-/

/-- Overlap test: does `kw` occur as a block at the head of `t`?
Building block for Python's substring operator `k in t`. -/
def subAt : List Char → List Char → Bool
  | _, [] => true
  | [], _ :: _ => false
  | c :: cs, k :: ks => c == k && subAt cs ks

/-- Python's substring operator `kw in t` on character lists. -/
def containsSub : List Char → List Char → Bool
  | [], kw => subAt [] kw
  | c :: rest, kw => subAt (c :: rest) kw || containsSub rest kw

/-- The test `any(k in t for k in ks)` from `classify_category`. -/
def keywordHit (t : List Char) (ks : List String) : Bool :=
  ks.any (fun k => containsSub t k.data)

/-- Python's `text.lower()` as a character list (ASCII lowering, charwise). -/
def lowerStr (s : String) : List Char :=
  s.data.map Char.toLower

/-- First keyword group of `classify_category` (source line 35). -/
def simrsKeywords : List String :=
  ["simrs", "hospital information system", "rekam medis", " his "]

/-- Second keyword group of `classify_category` (source line 37). -/
def obatKeywords : List String :=
  ["obat", "drug", "pharmaceutical", "farmasi", "medicine"]

/-- Third keyword group of `classify_category` (source line 39). -/
def kardioKeywords : List String :=
  ["kardi", "cardio", "heart", "ecg", "ekg"]

/-- The source's `classify_category`: lower-case the text, then test the
three keyword groups in order, falling back to "General Healthcare". -/
def classify_category (text : String) : String :=
  let t := lowerStr text
  if keywordHit t simrsKeywords then "SIMRS"
  else if keywordHit t obatKeywords then "Obat"
  else if keywordHit t kardioKeywords then "Kardiovaskular"
  else "General Healthcare"

/-- C2: `classify_category` is total and deterministic — every text maps to
exactly one of the four labels — and the keyword groups are evaluated
strictly in order SIMRS → Obat → Kardiovaskular → fallback: a group-1 hit
always yields "SIMRS", group 2 is consulted only when group 1 missed, and so
on down to the fallback. -/
theorem classify_total_ordered : ∀ text : String,
    (classify_category text = "SIMRS" ∨ classify_category text = "Obat" ∨
      classify_category text = "Kardiovaskular" ∨
      classify_category text = "General Healthcare") ∧
    (keywordHit (lowerStr text) simrsKeywords = true →
      classify_category text = "SIMRS") ∧
    (keywordHit (lowerStr text) simrsKeywords = false →
      keywordHit (lowerStr text) obatKeywords = true →
      classify_category text = "Obat") ∧
    (keywordHit (lowerStr text) simrsKeywords = false →
      keywordHit (lowerStr text) obatKeywords = false →
      keywordHit (lowerStr text) kardioKeywords = true →
      classify_category text = "Kardiovaskular") ∧
    (keywordHit (lowerStr text) simrsKeywords = false →
      keywordHit (lowerStr text) obatKeywords = false →
      keywordHit (lowerStr text) kardioKeywords = false →
      classify_category text = "General Healthcare") := by
  intro text
  simp only [classify_category]
  by_cases h1 : keywordHit (lowerStr text) simrsKeywords <;>
    by_cases h2 : keywordHit (lowerStr text) obatKeywords <;>
      by_cases h3 : keywordHit (lowerStr text) kardioKeywords <;>
        simp [h1, h2, h3]

/-- Witness for C2 at a concrete input: a text containing both "obat" and
"simrs" classifies as "SIMRS" because group 1 takes precedence. -/
theorem classify_total_ordered_witness :
    classify_category "aplikasi obat untuk simrs" = "SIMRS" :=
  (classify_total_ordered "aplikasi obat untuk simrs").2.1 (by decide)

/-- C3: the space-padded keyword " his " only matches when surrounded by
spaces in the lower-cased text: "cardiovascularhistory" is not classified
"SIMRS" (it falls through to "Kardiovaskular" via "cardio"), while
"national his program" is classified "SIMRS". -/
theorem his_token_space_guard :
    classify_category "cardiovascularhistory" ≠ "SIMRS" ∧
    classify_category "cardiovascularhistory" = "Kardiovaskular" ∧
    classify_category "national his program" = "SIMRS" := by
  decide

/-- One raw item of a search-response page, with the fields the script reads.
`full_name`, `description` and `language` keep the possibly-missing (`None`)
shape the script guards against; the other fields appear through
`item.get(key, default)` so the default is representable directly. -/
structure Item where
  full_name : Option String
  name : String
  html_url : String
  description : Option String
  language : Option String
  stargazers_count : Nat
  forks_count : Nat
  open_issues_count : Nat
  created_at : String
  updated_at : String
  topics : List String
deriving DecidableEq

/-- One accumulated repository record, mirroring the dict built at source
lines 88–102. -/
structure Record where
  source_query : String
  name : String
  full_name : String
  url : String
  category : String
  description : String
  language : String
  stars : Nat
  forks : Nat
  open_issues : Nat
  created_at : String
  updated_at : String
  topics : String
deriving DecidableEq

/-- Python truthiness of an optional string: `None` and `""` are falsy
(the `if not full_name: continue` guard). -/
def truthyStr : Option String → Bool
  | none => false
  | some s => !(s == "")

/-- Python whitespace for `str.strip()` (the ASCII whitespace characters;
all inputs here are ASCII). -/
def isPySpace (c : Char) : Bool :=
  c = ' ' || c = '\t' || c = '\n' || c = '\r' || c = '\x0b' || c = '\x0c'

/-- Python's `s.replace("\n", " ")`: every newline character becomes a space. -/
def replaceNl (s : String) : String :=
  ⟨s.data.map (fun c => if c = '\n' then ' ' else c)⟩

/-- Python's `s.strip()`: drop leading and trailing whitespace. -/
def stripStr (s : String) : String :=
  ⟨((s.data.dropWhile isPySpace).reverse.dropWhile isPySpace).reverse⟩

/-- The record built from one item (source lines 83–102): description with
newlines replaced and stripped, topics comma-joined, category classified from
"name description topics". -/
def buildRecord (query : String) (item : Item) (fn : String) : Record :=
  let description := stripStr (replaceNl (item.description.getD ""))
  let topics_text := String.intercalate "," item.topics
  let classify_text := item.name ++ " " ++ description ++ " " ++ topics_text
  { source_query := query
    name := item.name
    full_name := fn
    url := item.html_url
    category := classify_category classify_text
    description := description
    language := item.language.getD ""
    stars := item.stargazers_count
    forks := item.forks_count
    open_issues := item.open_issues_count
    created_at := item.created_at
    updated_at := item.updated_at
    topics := topics_text }

/-- The (identifier, record) pairs a page's item list contributes: items with
a falsy `full_name` are skipped, the rest are keyed by it. -/
def validPairs (query : String) (items : List Item) : List (String × Record) :=
  items.filterMap (fun item =>
    if truthyStr item.full_name then
      some (item.full_name.getD "", buildRecord query item (item.full_name.getD ""))
    else none)

/-- Assignment `repos[k] = v` on an insertion-ordered dict modelled as an association
list: an existing key keeps its position and gets the new value, a new key is
appended at the end. -/
def odSet (m : List (String × Record)) (k : String) (v : Record) :
    List (String × Record) :=
  match m with
  | [] => [(k, v)]
  | p :: rest => if p.1 = k then (k, v) :: rest else p :: odSet rest k v

/-- Sequential dict assignment of a list of pairs (the inner item loop). -/
def insertAll (m : List (String × Record)) (ps : List (String × Record)) :
    List (String × Record) :=
  ps.foldl (fun a p => odSet a p.1 p.2) m

/-- Dict lookup on the association list. -/
def odLookup (m : List (String × Record)) (k : String) : Option Record :=
  match m with
  | [] => none
  | p :: rest => if p.1 = k then some p.2 else odLookup rest k

/-- Ghost record of one Search Client invocation: which (query, page) was
fetched, whether its item list was empty, and the accumulator size right
after the page was processed (unchanged when empty). -/
structure TraceEntry where
  query : String
  page : Nat
  itemsEmpty : Bool
  lenAfter : Nat
deriving DecidableEq

/-- Result of (part of) a collector run: the accumulator, the fetch trace,
the processed (identifier, record) pairs in processing order, and whether the
run returned early because the target was reached. -/
structure FetchResult where
  repos : List (String × Record)
  trace : List TraceEntry
  inserted : List (String × Record)
  early : Bool
deriving DecidableEq

/-- The inner page loop of `fetch_repositories` for one query, starting at
`page` with `pagesLeft` pages remaining (Python's
`for page in range(1, max_pages + 1)`). The Search Client is the function
`client`; a `none` payload is one whose decoded object lacks the `items`
key, read through `payload.get("items", [])`. An empty item list breaks out
of the page loop; otherwise the items are inserted and, if the accumulator
has reached `target`, the run returns early. -/
def fetchQueryPages (client : String → Nat → Option (List Item)) (target : Nat)
    (query : String) : Nat → Nat → List (String × Record) → FetchResult
  | _, 0, acc => ⟨acc, [], [], false⟩
  | page, pagesLeft + 1, acc =>
    let items := (client query page).getD []
    if items.isEmpty then ⟨acc, [⟨query, page, true, acc.length⟩], [], false⟩
    else
      let ps := validPairs query items
      let acc1 := insertAll acc ps
      if target ≤ acc1.length then
        ⟨acc1, [⟨query, page, false, acc1.length⟩], ps, true⟩
      else
        let r := fetchQueryPages client target query (page + 1) pagesLeft acc1
        ⟨r.repos, ⟨query, page, false, acc1.length⟩ :: r.trace,
          ps ++ r.inserted, r.early⟩

/-- The outer query loop of `fetch_repositories`. -/
def fetchGo (client : String → Nat → Option (List Item)) (target maxPages : Nat) :
    List String → List (String × Record) → FetchResult
  | [], acc => ⟨acc, [], [], false⟩
  | q :: qs, acc =>
    let r := fetchQueryPages client target q 1 maxPages acc
    if r.early then r
    else
      let r2 := fetchGo client target maxPages qs r.repos
      ⟨r2.repos, r.trace ++ r2.trace, r.inserted ++ r2.inserted, r2.early⟩

/-- The source's `fetch_repositories(queries, target, max_pages, per_page, sleep)` with the
Search Client abstracted as `client` (which already fixes the page size) and
the pacing sleep dropped: it affects timing only, never data. -/
def fetchRepositories (client : String → Nat → Option (List Item))
    (queries : List String) (target maxPages : Nat) : FetchResult :=
  fetchGo client target maxPages queries []

/-- The script's actual return value `list(repos.values())`. -/
def fetch_rows (client : String → Nat → Option (List Item))
    (queries : List String) (target maxPages : Nat) : List Record :=
  (fetchRepositories client queries target maxPages).repos.map Prod.snd

/-- Keep the first occurrence of each string, dropping later duplicates,
given the strings already seen. -/
def dedupFirstAux (seen : List String) : List String → List String
  | [] => []
  | x :: xs =>
    if x ∈ seen then dedupFirstAux seen xs
    else x :: dedupFirstAux (x :: seen) xs

/-- First-occurrence deduplication of a list of strings. -/
def dedupFirst (l : List String) : List String :=
  dedupFirstAux [] l

/-- The value attached to the LAST pair with key `k` in `ps`, if any. -/
def lastAssoc (ps : List (String × Record)) (k : String) : Option Record :=
  ps.foldl (fun acc p => if p.1 = k then some p.2 else acc) none

theorem odSet_keys (m : List (String × Record)) (k : String) (v : Record) :
    (odSet m k v).map Prod.fst =
      if k ∈ m.map Prod.fst then m.map Prod.fst
      else m.map Prod.fst ++ [k] := by
  induction m with
  | nil => simp [odSet]
  | cons p rest ih =>
    by_cases h : p.1 = k
    · subst h
      simp [odSet]
    · have h2 : ¬k = p.1 := fun e => h e.symm
      simp only [odSet]
      rw [if_neg h]
      simp only [List.map_cons, ih, List.mem_cons, h2, false_or]
      by_cases hc : k ∈ rest.map Prod.fst <;> simp [hc]

theorem dedupFirstAux_congr (l : List String) : ∀ s1 s2 : List String,
    (∀ x, x ∈ s1 ↔ x ∈ s2) →
    dedupFirstAux s1 l = dedupFirstAux s2 l := by
  induction l with
  | nil => intro s1 s2 _; rfl
  | cons x xs ih =>
    intro s1 s2 h
    simp only [dedupFirstAux]
    by_cases hc : x ∈ s2
    · rw [if_pos ((h x).mpr hc), if_pos hc]
      exact ih s1 s2 h
    · have hc1 : ¬x ∈ s1 := fun hx => hc ((h x).mp hx)
      rw [if_neg hc1, if_neg hc]
      have h' : ∀ y, y ∈ x :: s1 ↔ y ∈ x :: s2 := by
        intro y
        simp [List.mem_cons, h y]
      rw [ih (x :: s1) (x :: s2) h']

theorem insertAll_keys (ps : List (String × Record)) :
    ∀ m : List (String × Record),
    (insertAll m ps).map Prod.fst =
      m.map Prod.fst ++ dedupFirstAux (m.map Prod.fst) (ps.map Prod.fst) := by
  induction ps with
  | nil => intro m; simp [insertAll, dedupFirstAux]
  | cons p rest ih =>
    intro m
    have step : insertAll m (p :: rest) = insertAll (odSet m p.1 p.2) rest := rfl
    rw [step, ih (odSet m p.1 p.2), odSet_keys]
    simp only [List.map_cons, dedupFirstAux]
    by_cases hc : p.1 ∈ m.map Prod.fst
    · rw [if_pos hc, if_pos hc]
    · rw [if_neg hc, if_neg hc]
      have hcongr : dedupFirstAux (m.map Prod.fst ++ [p.1]) (rest.map Prod.fst) =
          dedupFirstAux (p.1 :: m.map Prod.fst) (rest.map Prod.fst) := by
        apply dedupFirstAux_congr
        intro x
        simp [List.mem_append, List.mem_cons, or_comm]
      rw [hcongr, List.append_assoc]
      simp

theorem insertAll_append (m : List (String × Record))
    (ps qs : List (String × Record)) :
    insertAll m (ps ++ qs) = insertAll (insertAll m ps) qs := by
  simp [insertAll, List.foldl_append]

theorem odLookup_odSet (m : List (String × Record)) (k k' : String) (v : Record) :
    odLookup (odSet m k v) k' = if k = k' then some v else odLookup m k' := by
  induction m with
  | nil => simp [odSet, odLookup]
  | cons p rest ih =>
    simp only [odSet]
    by_cases h : p.1 = k
    · rw [if_pos h]
      by_cases h2 : k = k'
      · subst h2
        simp [odLookup]
      · have h4 : ¬p.1 = k' := by rw [h]; exact h2
        simp [odLookup, h2, h4]
    · rw [if_neg h]
      by_cases h2 : p.1 = k'
      · subst h2
        have h3 : ¬k = p.1 := fun e => h e.symm
        simp [odLookup, h3]
      · simp [odLookup, h2, ih]

/-- The first `some` of two options, used to express "last assignment wins,
with a fallback". -/
def orElseO (a b : Option Record) : Option Record :=
  match a with
  | some v => some v
  | none => b

theorem lastAssoc_foldl (k : String) : ∀ (ps : List (String × Record))
    (o : Option Record),
    ps.foldl (fun acc p => if p.1 = k then some p.2 else acc) o =
      orElseO (lastAssoc ps k) o := by
  intro ps
  induction ps with
  | nil => intro o; simp [lastAssoc, orElseO]
  | cons p rest ih =>
    intro o
    simp only [List.foldl_cons]
    by_cases h : p.1 = k
    · rw [if_pos h, ih (some p.2)]
      have hcons : lastAssoc (p :: rest) k = orElseO (lastAssoc rest k) (some p.2) := by
        simp only [lastAssoc, List.foldl_cons]
        rw [if_pos h]
        exact ih (some p.2)
      rw [hcons]
      cases lastAssoc rest k <;> simp [orElseO]
    · rw [if_neg h, ih o]
      have hcons : lastAssoc (p :: rest) k = lastAssoc rest k := by
        simp only [lastAssoc, List.foldl_cons]
        rw [if_neg h]
      rw [hcons]

theorem odLookup_insertAll (ps : List (String × Record)) :
    ∀ m : List (String × Record), ∀ k : String,
    odLookup (insertAll m ps) k = orElseO (lastAssoc ps k) (odLookup m k) := by
  induction ps with
  | nil => intro m k; simp [insertAll, lastAssoc, orElseO]
  | cons p rest ih =>
    intro m k
    have step : insertAll m (p :: rest) = insertAll (odSet m p.1 p.2) rest := rfl
    rw [step, ih (odSet m p.1 p.2) k, odLookup_odSet]
    have hcons : lastAssoc (p :: rest) k =
        orElseO (lastAssoc rest k) (if p.1 = k then some p.2 else none) := by
      simp only [lastAssoc, List.foldl_cons]
      exact lastAssoc_foldl k rest (if p.1 = k then some p.2 else none)
    rw [hcons]
    by_cases h : p.1 = k <;> cases hl : lastAssoc rest k <;> simp [orElseO, h]

theorem fetchQueryPages_repos (client : String → Nat → Option (List Item))
    (target : Nat) (query : String) : ∀ (pagesLeft page : Nat)
    (acc : List (String × Record)),
    (fetchQueryPages client target query page pagesLeft acc).repos =
      insertAll acc (fetchQueryPages client target query page pagesLeft acc).inserted := by
  intro pagesLeft
  induction pagesLeft with
  | zero => intro page acc; simp [fetchQueryPages, insertAll]
  | succ pl ih =>
    intro page acc
    simp only [fetchQueryPages]
    by_cases hI : ((client query page).getD []).isEmpty
    · simp [hI, insertAll]
    · simp only [hI, Bool.false_eq_true, if_false]
      by_cases hT : target ≤
          (insertAll acc (validPairs query ((client query page).getD []))).length
      · simp [hT]
      · simp only [hT, if_false]
        rw [insertAll_append]
        exact ih (page + 1) (insertAll acc (validPairs query ((client query page).getD [])))

theorem fetchGo_repos (client : String → Nat → Option (List Item))
    (target maxPages : Nat) : ∀ (qs : List String) (acc : List (String × Record)),
    (fetchGo client target maxPages qs acc).repos =
      insertAll acc (fetchGo client target maxPages qs acc).inserted := by
  intro qs
  induction qs with
  | nil => intro acc; simp [fetchGo, insertAll]
  | cons q rest ih =>
    intro acc
    simp only [fetchGo]
    by_cases hE : (fetchQueryPages client target q 1 maxPages acc).early
    · simp only [hE, if_true]
      exact fetchQueryPages_repos client target q maxPages 1 acc
    · simp only [hE, Bool.false_eq_true, if_false]
      rw [insertAll_append, ← fetchQueryPages_repos]
      exact ih (fetchQueryPages client target q 1 maxPages acc).repos

theorem fetchRepositories_repos (client : String → Nat → Option (List Item))
    (queries : List String) (target maxPages : Nat) :
    (fetchRepositories client queries target maxPages).repos =
      insertAll [] (fetchRepositories client queries target maxPages).inserted :=
  fetchGo_repos client target maxPages queries []

theorem mem_dedupFirstAux_iff (l : List String) : ∀ (seen : List String)
    (x : String), x ∈ dedupFirstAux seen l ↔ (x ∈ l ∧ ¬x ∈ seen) := by
  induction l with
  | nil => intro seen x; simp [dedupFirstAux]
  | cons y ys ih =>
    intro seen x
    simp only [dedupFirstAux]
    by_cases h : y ∈ seen
    · rw [if_pos h, ih seen x]
      constructor
      · rintro ⟨hx, hs⟩
        exact ⟨List.mem_cons_of_mem y hx, hs⟩
      · rintro ⟨hx, hs⟩
        rcases List.mem_cons.mp hx with he | hm
        · subst he; exact absurd h hs
        · exact ⟨hm, hs⟩
    · rw [if_neg h]
      simp only [List.mem_cons, ih (y :: seen) x, List.mem_cons]
      constructor
      · rintro (he | ⟨hx, hs⟩)
        · subst he; exact ⟨Or.inl rfl, h⟩
        · exact ⟨Or.inr hx, fun hsx => hs (Or.inr hsx)⟩
      · rintro ⟨he | hx, hs⟩
        · exact Or.inl he
        · by_cases hxy : x = y
          · exact Or.inl hxy
          · exact Or.inr ⟨hx, fun hc => hc.elim hxy hs⟩

theorem dedupFirstAux_nodup (l : List String) : ∀ seen : List String,
    (dedupFirstAux seen l).Nodup := by
  induction l with
  | nil => intro seen; simp [dedupFirstAux]
  | cons y ys ih =>
    intro seen
    simp only [dedupFirstAux]
    by_cases h : y ∈ seen
    · rw [if_pos h]; exact ih seen
    · rw [if_neg h]
      refine List.nodup_cons.mpr ⟨?_, ih (y :: seen)⟩
      intro hy
      exact ((mem_dedupFirstAux_iff ys (y :: seen) y).mp hy).2 (List.mem_cons_self y seen)

theorem dedupFirst_nodup (l : List String) : (dedupFirst l).Nodup :=
  dedupFirstAux_nodup l []

theorem mem_dedupFirst_iff (l : List String) (x : String) :
    x ∈ dedupFirst l ↔ x ∈ l := by
  rw [dedupFirst, mem_dedupFirstAux_iff l [] x]
  simp

theorem validPairs_wf (query : String) (items : List Item) :
    ∀ p ∈ validPairs query items, p.2.full_name = p.1 := by
  intro p hp
  rcases List.mem_filterMap.mp hp with ⟨item, _, hf⟩
  by_cases h : truthyStr item.full_name
  · rw [if_pos h] at hf
    cases hf
    rfl
  · rw [if_neg h] at hf
    cases hf

theorem odSet_wf (k : String) (v : Record) (hv : v.full_name = k) :
    ∀ m : List (String × Record),
    (∀ p ∈ m, p.2.full_name = p.1) →
    ∀ p ∈ odSet m k v, p.2.full_name = p.1 := by
  intro m
  induction m with
  | nil =>
    intro _ p hp
    simp only [odSet, List.mem_singleton] at hp
    subst hp
    exact hv
  | cons q rest ih =>
    intro hm p hp
    simp only [odSet] at hp
    by_cases h : q.1 = k
    · rw [if_pos h] at hp
      rcases List.mem_cons.mp hp with he | hm2
      · subst he; exact hv
      · exact hm p (List.mem_cons_of_mem q hm2)
    · rw [if_neg h] at hp
      rcases List.mem_cons.mp hp with he | hm2
      · subst he; exact hm p (List.mem_cons_self p rest)
      · exact ih (fun r hr => hm r (List.mem_cons_of_mem q hr)) p hm2

theorem insertAll_wf (ps : List (String × Record)) :
    ∀ m : List (String × Record),
    (∀ p ∈ m, p.2.full_name = p.1) → (∀ p ∈ ps, p.2.full_name = p.1) →
    ∀ p ∈ insertAll m ps, p.2.full_name = p.1 := by
  induction ps with
  | nil => intro m hm _; exact hm
  | cons q rest ih =>
    intro m hm hps
    have step : insertAll m (q :: rest) = insertAll (odSet m q.1 q.2) rest := rfl
    rw [step]
    exact ih (odSet m q.1 q.2)
      (odSet_wf q.1 q.2 (hps q (List.mem_cons_self q rest)) m hm)
      (fun p hp => hps p (List.mem_cons_of_mem q hp))

theorem fetchQueryPages_inserted_wf (client : String → Nat → Option (List Item))
    (target : Nat) (query : String) : ∀ (pagesLeft page : Nat)
    (acc : List (String × Record)),
    ∀ p ∈ (fetchQueryPages client target query page pagesLeft acc).inserted,
      p.2.full_name = p.1 := by
  intro pagesLeft
  induction pagesLeft with
  | zero => intro page acc p hp; simp [fetchQueryPages] at hp
  | succ pl ih =>
    intro page acc p hp
    simp only [fetchQueryPages] at hp
    by_cases hI : ((client query page).getD []).isEmpty
    · simp [hI] at hp
    · simp only [hI, Bool.false_eq_true, if_false] at hp
      by_cases hT : target ≤
          (insertAll acc (validPairs query ((client query page).getD []))).length
      · simp only [hT, if_true] at hp
        exact validPairs_wf query _ p hp
      · simp only [hT, if_false] at hp
        rcases List.mem_append.mp hp with hv | hrec
        · exact validPairs_wf query _ p hv
        · exact ih (page + 1) _ p hrec

theorem fetchGo_inserted_wf (client : String → Nat → Option (List Item))
    (target maxPages : Nat) : ∀ (qs : List String) (acc : List (String × Record)),
    ∀ p ∈ (fetchGo client target maxPages qs acc).inserted,
      p.2.full_name = p.1 := by
  intro qs
  induction qs with
  | nil => intro acc p hp; simp [fetchGo] at hp
  | cons q rest ih =>
    intro acc p hp
    simp only [fetchGo] at hp
    by_cases hE : (fetchQueryPages client target q 1 maxPages acc).early
    · simp only [hE, if_true] at hp
      exact fetchQueryPages_inserted_wf client target q maxPages 1 acc p hp
    · simp only [hE, Bool.false_eq_true, if_false] at hp
      rcases List.mem_append.mp hp with h1 | h2
      · exact fetchQueryPages_inserted_wf client target q maxPages 1 acc p h1
      · exact ih _ p h2

theorem repos_wf (client : String → Nat → Option (List Item))
    (queries : List String) (target maxPages : Nat) :
    ∀ p ∈ (fetchRepositories client queries target maxPages).repos,
      p.2.full_name = p.1 := by
  rw [fetchRepositories_repos]
  exact insertAll_wf _ [] (by simp)
    (fetchGo_inserted_wf client target maxPages queries [])

theorem rows_map_full_name (m : List (String × Record))
    (hm : ∀ p ∈ m, p.2.full_name = p.1) :
    (m.map Prod.snd).map Record.full_name = m.map Prod.fst := by
  rw [List.map_map]
  exact List.map_congr_left hm

theorem orElseO_none (a : Option Record) : orElseO a none = a := by
  cases a <;> rfl

/-- First occurrence of the duplicated identifier "org/repo" (page 1). -/
def itemDupFirst : Item :=
  ⟨some "org/repo", "data obat pertama", "https://x/1", some "kumpulan obat",
    some "Python", 3, 1, 1, "2020", "2021", []⟩

/-- Second occurrence of "org/repo" (page 2), with different field values. -/
def itemDupSecond : Item :=
  ⟨some "org/repo", "data obat kedua", "https://x/2", some "kumpulan obat",
    some "Python", 7, 2, 2, "2020", "2022", []⟩

/-- A client whose first query yields "org/repo" on two consecutive pages
with different field values. -/
def clientDup : String → Nat → Option (List Item) := fun _ p =>
  if p = 1 then some [itemDupFirst]
  else if p = 2 then some [itemDupSecond] else some []

/-- C1 counterexample: running the collector over two pages that both carry
the identifier "org/repo" keeps one record, but its star count is 7 — the
value of the SECOND occurrence — not 3, the value of the first. So later
duplicates are not "silently dropped": they overwrite the stored fields,
refuting the claim that the first occurrence's values are retained. -/
theorem dedup_first_wins_counterexample :
    (fetch_rows clientDup ["q"] 100 2).map Record.stars = [7] ∧
    ¬(fetch_rows clientDup ["q"] 100 2).map Record.stars = [3] := by
  decide

/-- C1 (amended): the accumulator keeps exactly one record per identifier
(its key list is duplicate-free and equals the first-occurrence
deduplication of all processed identifiers, so the record sits at the
position of the FIRST occurrence), but the record stored under each
identifier holds the field values of the LAST processed occurrence — later
duplicates overwrite the stored record in place. -/
theorem dedup_last_wins : ∀ (client : String → Nat → Option (List Item))
    (queries : List String) (target maxPages : Nat),
    ((fetchRepositories client queries target maxPages).repos.map Prod.fst).Nodup ∧
    (fetchRepositories client queries target maxPages).repos.map Prod.fst =
      dedupFirst
        ((fetchRepositories client queries target maxPages).inserted.map Prod.fst) ∧
    ∀ k : String,
      odLookup (fetchRepositories client queries target maxPages).repos k =
        lastAssoc (fetchRepositories client queries target maxPages).inserted k := by
  intro client queries target maxPages
  have h1 := fetchRepositories_repos client queries target maxPages
  have hkeys : (fetchRepositories client queries target maxPages).repos.map Prod.fst =
      dedupFirst
        ((fetchRepositories client queries target maxPages).inserted.map Prod.fst) := by
    rw [h1, insertAll_keys]
    simp [dedupFirst]
  refine ⟨?_, hkeys, ?_⟩
  · rw [hkeys]
    exact dedupFirst_nodup _
  · intro k
    rw [h1, odLookup_insertAll]
    simp only [odLookup]
    exact orElseO_none _

theorem odSet_length_le (k : String) (v : Record) :
    ∀ m : List (String × Record), (odSet m k v).length ≤ m.length + 1 := by
  intro m
  induction m with
  | nil => simp [odSet]
  | cons p rest ih =>
    simp only [odSet]
    by_cases h : p.1 = k
    · rw [if_pos h]
      simp
    · rw [if_neg h]
      simp only [List.length_cons]
      omega

theorem insertAll_length_le (ps : List (String × Record)) :
    ∀ m : List (String × Record),
    (insertAll m ps).length ≤ m.length + ps.length := by
  induction ps with
  | nil => intro m; simp [insertAll]
  | cons p rest ih =>
    intro m
    have step : insertAll m (p :: rest) = insertAll (odSet m p.1 p.2) rest := rfl
    rw [step]
    have h1 := ih (odSet m p.1 p.2)
    have h2 := odSet_length_le p.1 p.2 m
    simp only [List.length_cons]
    omega

theorem validPairs_length_le (query : String) (items : List Item) :
    (validPairs query items).length ≤ items.length :=
  List.length_filterMap_le _ items

theorem fetchQueryPages_length (client : String → Nat → Option (List Item))
    (target perPage : Nat) (query : String)
    (hC : ∀ (q : String) (p : Nat), ((client q p).getD []).length ≤ perPage) :
    ∀ (pagesLeft page : Nat) (acc : List (String × Record)),
    acc.length < target →
    ((fetchQueryPages client target query page pagesLeft acc).early = false →
      (fetchQueryPages client target query page pagesLeft acc).repos.length < target) ∧
    (fetchQueryPages client target query page pagesLeft acc).repos.length ≤
      (target - 1) + perPage := by
  intro pagesLeft
  induction pagesLeft with
  | zero =>
    intro page acc hacc
    simp only [fetchQueryPages]
    exact ⟨fun _ => hacc, by omega⟩
  | succ pl ih =>
    intro page acc hacc
    simp only [fetchQueryPages]
    by_cases hI : ((client query page).getD []).isEmpty
    · simp only [hI, if_true]
      exact ⟨fun _ => hacc, by omega⟩
    · simp only [hI, Bool.false_eq_true, if_false]
      have hlen : (insertAll acc (validPairs query ((client query page).getD []))).length ≤
          acc.length + perPage := by
        have h1 := insertAll_length_le (validPairs query ((client query page).getD [])) acc
        have h2 := validPairs_length_le query ((client query page).getD [])
        have h3 := hC query page
        omega
      by_cases hT : target ≤
          (insertAll acc (validPairs query ((client query page).getD []))).length
      · simp only [hT, if_true]
        exact ⟨fun h => by simp at h, by omega⟩
      · simp only [hT, if_false]
        have hlt : (insertAll acc (validPairs query ((client query page).getD []))).length <
            target := by omega
        exact ih (page + 1) _ hlt

theorem fetchGo_length (client : String → Nat → Option (List Item))
    (target maxPages perPage : Nat)
    (hC : ∀ (q : String) (p : Nat), ((client q p).getD []).length ≤ perPage) :
    ∀ (qs : List String) (acc : List (String × Record)),
    acc.length < target →
    ((fetchGo client target maxPages qs acc).early = false →
      (fetchGo client target maxPages qs acc).repos.length < target) ∧
    (fetchGo client target maxPages qs acc).repos.length ≤ (target - 1) + perPage := by
  intro qs
  induction qs with
  | nil =>
    intro acc hacc
    simp only [fetchGo]
    exact ⟨fun _ => hacc, by omega⟩
  | cons q rest ih =>
    intro acc hacc
    simp only [fetchGo]
    have hq := fetchQueryPages_length client target perPage q hC maxPages 1 acc hacc
    by_cases hE : (fetchQueryPages client target q 1 maxPages acc).early
    · simp only [hE, if_true]
      exact ⟨fun h => absurd h (by simp [hE]), hq.2⟩
    · simp only [hE, Bool.false_eq_true, if_false]
      have hlt := hq.1 (by simpa using hE)
      exact ih _ hlt

/-- The single item of the `target = 0` run, on a page of size 1. -/
def itemT0 : Item :=
  ⟨some "a/b", "healthcare data", "https://x", some "dataset", none, 1, 0, 0,
    "2020", "2021", []⟩

/-- A client yielding one unique item on page 1 of any query and nothing
after; every page carries at most one item (page size 1). -/
def clientT0 : String → Nat → Option (List Item) := fun _ p =>
  if p = 1 then some [itemT0] else some []

/-- C5 counterexample: with `target_count = 0` and `page_size = 1` (every
page of `clientT0` carries at most one item), the collector returns the whole
first non-empty page — 1 record — exceeding the claimed bound
`target_count + (page_size − 1) = 0`. The claim fails for `target_count = 0`. -/
theorem overshoot_bound_counterexample :
    (fetch_rows clientT0 ["q"] 0 1).length = 1 ∧
    ¬(fetch_rows clientT0 ["q"] 0 1).length ≤ 0 + (1 - 1) := by
  decide

/-- C5 (amended): for every run with `target_count ≥ 1` whose pages each
carry at most `page_size` items, the returned sequence lists records by the
first insertion of their identifier (first-occurrence order of all processed
identifiers), and its length is at most `target_count + (page_size − 1)`.
For `target_count = 0` the first non-empty page is returned whole, so only
the weaker bound `page_size` holds (see the counterexample). -/
theorem insertion_order_and_overshoot_bound :
    ∀ (client : String → Nat → Option (List Item)) (queries : List String)
    (target maxPages perPage : Nat),
    1 ≤ target →
    (∀ (q : String) (p : Nat), ((client q p).getD []).length ≤ perPage) →
    (fetch_rows client queries target maxPages).map Record.full_name =
      dedupFirst
        ((fetchRepositories client queries target maxPages).inserted.map Prod.fst) ∧
    (fetch_rows client queries target maxPages).length ≤ target + (perPage - 1) := by
  intro client queries target maxPages perPage hT hC
  constructor
  · rw [fetch_rows,
      rows_map_full_name _ (repos_wf client queries target maxPages),
      fetchRepositories_repos, insertAll_keys]
    simp [dedupFirst]
  · rw [fetch_rows, List.length_map]
    have h := (fetchGo_length client target maxPages perPage hC queries []
      (by simpa using hT)).2
    rw [fetchRepositories]
    omega

/-- Witness for C5 (amended) at a concrete run: `target = 1`, `page size 1`. -/
theorem insertion_order_and_overshoot_bound_witness :
    (fetch_rows clientT0 ["q"] 1 1).map Record.full_name =
      dedupFirst ((fetchRepositories clientT0 ["q"] 1 1).inserted.map Prod.fst) ∧
    (fetch_rows clientT0 ["q"] 1 1).length ≤ 1 + (1 - 1) :=
  insertion_order_and_overshoot_bound clientT0 ["q"] 1 1 1 (by decide)
    (by
      intro q p
      simp only [clientT0]
      by_cases h : p = 1 <;> simp [h, itemT0])

/-- A fetched page is "non-triggering" when it could not have triggered the
early return: either its item list was empty (the target check is skipped and
the query loop is left), or the accumulator was still below target right
after it was processed. -/
def entryOk (target : Nat) (e : TraceEntry) : Bool :=
  e.itemsEmpty || decide (e.lenAfter < target)

/-- Every entry of the trace is non-triggering. -/
def allOk (target : Nat) (l : List TraceEntry) : Bool :=
  l.all (entryOk target)

/-- Every entry of the trace except possibly the LAST one is non-triggering:
the shape of a trace in which the collector stopped fetching the moment a
processed page brought the accumulator up to the target. -/
def okTrace (target : Nat) : List TraceEntry → Bool
  | [] => true
  | e :: rest => (rest.isEmpty || entryOk target e) && okTrace target rest

theorem allOk_okTrace (target : Nat) : ∀ l : List TraceEntry,
    allOk target l = true → okTrace target l = true := by
  intro l
  induction l with
  | nil => intro _; rfl
  | cons e rest ih =>
    intro h
    simp only [allOk, List.all_cons, Bool.and_eq_true] at h
    obtain ⟨he, hrest⟩ := h
    simp [okTrace, he, ih (by simpa [allOk] using hrest)]

theorem okTrace_append (target : Nat) : ∀ xs ys : List TraceEntry,
    allOk target xs = true → okTrace target ys = true →
    okTrace target (xs ++ ys) = true := by
  intro xs
  induction xs with
  | nil => intro ys _ h; simpa using h
  | cons x rest ih =>
    intro ys hall hys
    simp only [allOk, List.all_cons, Bool.and_eq_true] at hall
    obtain ⟨hx, hrest⟩ := hall
    simp only [List.cons_append, okTrace, hx]
    simp [ih ys (by simpa [allOk] using hrest) hys]

theorem fetchQueryPages_trace (client : String → Nat → Option (List Item))
    (target : Nat) (query : String) : ∀ (pagesLeft page : Nat)
    (acc : List (String × Record)),
    ((fetchQueryPages client target query page pagesLeft acc).early = true →
      okTrace target (fetchQueryPages client target query page pagesLeft acc).trace = true) ∧
    ((fetchQueryPages client target query page pagesLeft acc).early = false →
      allOk target (fetchQueryPages client target query page pagesLeft acc).trace = true) := by
  intro pagesLeft
  induction pagesLeft with
  | zero =>
    intro page acc
    simp [fetchQueryPages, okTrace, allOk]
  | succ pl ih =>
    intro page acc
    simp only [fetchQueryPages]
    by_cases hI : ((client query page).getD []).isEmpty
    · simp only [hI, if_true]
      constructor
      · intro h; simp at h
      · intro _
        simp [allOk, entryOk]
    · simp only [hI, Bool.false_eq_true, if_false]
      by_cases hT : target ≤
          (insertAll acc (validPairs query ((client query page).getD []))).length
      · simp only [hT, if_true]
        constructor
        · intro _
          simp [okTrace]
        · intro h; simp at h
      · simp only [hT, if_false]
        have hok : entryOk target
            ⟨query, page, false,
              (insertAll acc (validPairs query ((client query page).getD []))).length⟩ =
            true := by
          simp only [entryOk, Bool.false_or]
          exact decide_eq_true (by omega)
        have ihx := ih (page + 1)
          (insertAll acc (validPairs query ((client query page).getD [])))
        constructor
        · intro h
          simp only [okTrace, hok, Bool.or_true, Bool.true_and]
          exact (ihx.1 h)
        · intro h
          simp only [allOk, List.all_cons, hok, Bool.true_and]
          exact (ihx.2 h)

theorem fetchGo_trace (client : String → Nat → Option (List Item))
    (target maxPages : Nat) : ∀ (qs : List String) (acc : List (String × Record)),
    ((fetchGo client target maxPages qs acc).early = true →
      okTrace target (fetchGo client target maxPages qs acc).trace = true) ∧
    ((fetchGo client target maxPages qs acc).early = false →
      allOk target (fetchGo client target maxPages qs acc).trace = true) := by
  intro qs
  induction qs with
  | nil =>
    intro acc
    simp [fetchGo, okTrace, allOk]
  | cons q rest ih =>
    intro acc
    simp only [fetchGo]
    have hq := fetchQueryPages_trace client target q maxPages 1 acc
    by_cases hE : (fetchQueryPages client target q 1 maxPages acc).early
    · simp only [hE, if_true]
      exact ⟨fun _ => hq.1 hE, fun h => absurd h (by simp [hE])⟩
    · simp only [hE, Bool.false_eq_true, if_false]
      have hall := hq.2 (by simpa using hE)
      have ihx := ih (fetchQueryPages client target q 1 maxPages acc).repos
      constructor
      · intro h
        exact okTrace_append target _ _ hall (ihx.1 h)
      · intro h
        simp only [allOk, List.all_append]
        simp only [allOk] at hall
        rw [hall]
        simpa [allOk] using ihx.2 h

/-- C4: once the accumulator reaches `target` right after a processed page,
the collector never fetches again. Every Search Client invocation of a run
except possibly the last lands on a page that was either empty (the check is
skipped and the query is abandoned) or left the accumulator below `target`;
equivalently, a fetch whose processed page reached the target is always the
final fetch of the run, and the run returns there. -/
theorem early_termination_no_further_fetches :
    ∀ (client : String → Nat → Option (List Item)) (queries : List String)
    (target maxPages : Nat),
    okTrace target (fetchRepositories client queries target maxPages).trace = true := by
  intro client queries target maxPages
  have h := fetchGo_trace client target maxPages queries []
  cases hE : (fetchGo client target maxPages queries []).early
  · exact allOk_okTrace target _ (h.2 hE)
  · exact h.1 hE

theorem fetchQueryPages_client_congr (c1 c2 : String → Nat → Option (List Item))
    (h : ∀ (q : String) (p : Nat), (c1 q p).getD [] = (c2 q p).getD [])
    (target : Nat) (query : String) : ∀ (pagesLeft page : Nat)
    (acc : List (String × Record)),
    fetchQueryPages c1 target query page pagesLeft acc =
      fetchQueryPages c2 target query page pagesLeft acc := by
  intro pagesLeft
  induction pagesLeft with
  | zero => intro page acc; rfl
  | succ pl ih =>
    intro page acc
    simp only [fetchQueryPages, h query page, ih (page + 1)]

theorem fetchGo_client_congr (c1 c2 : String → Nat → Option (List Item))
    (h : ∀ (q : String) (p : Nat), (c1 q p).getD [] = (c2 q p).getD [])
    (target maxPages : Nat) : ∀ (qs : List String) (acc : List (String × Record)),
    fetchGo c1 target maxPages qs acc = fetchGo c2 target maxPages qs acc := by
  intro qs
  induction qs with
  | nil => intro acc; rfl
  | cons q rest ih =>
    intro acc
    simp only [fetchGo, fetchQueryPages_client_congr c1 c2 h target q maxPages 1 acc,
      ih]

/-- An item delivered by the second query of the C10 scenario. -/
def itemQ2 : Item :=
  ⟨some "x/y", "healthcare data", "https://x", some "dataset", none, 2, 0, 0,
    "2020", "2021", []⟩

/-- A client whose responses for query "q1" lack the `items` key entirely
(`none`), while query "q2" yields one item on page 1. -/
def clientMissingItems : String → Nat → Option (List Item) := fun q p =>
  if q = "q1" then none
  else if p = 1 then some [itemQ2] else some []

/-- C10: a decoded response lacking the `items` key is read through
`payload.get("items", [])` and treated exactly like a page with zero items:
replacing every `none` payload by `some []` changes nothing about the run
(so the query is abandoned and the collector moves on, rather than
raising), and concretely a run whose first query always lacks `items` still
collects the second query's records. -/
theorem missing_items_like_empty_page :
    (∀ (client : String → Nat → Option (List Item)) (queries : List String)
      (target maxPages : Nat),
      fetchRepositories (fun q p => some ((client q p).getD [])) queries
          target maxPages =
        fetchRepositories client queries target maxPages) ∧
    (fetch_rows clientMissingItems ["q1", "q2"] 5 3).map Record.full_name =
      ["x/y"] := by
  constructor
  · intro client queries target maxPages
    exact fetchGo_client_congr (fun q p => some ((client q p).getD [])) client
      (fun q p => rfl) target maxPages queries []
  · decide

/-- One step of `collections.Counter` construction: increment the count of
`c`, first-encounter order of keys preserved, new keys appended. -/
def bump : List (String × Nat) → String → List (String × Nat)
  | [], c => [(c, 1)]
  | p :: rest, c => if p.1 = c then (p.1, p.2 + 1) :: rest else p :: bump rest c

/-- Python's `Counter(xs)`: keys in first-encounter order with their multiplicities. -/
def counterList (l : List String) : List (String × Nat) :=
  l.foldl bump []

/-- Count lookup in a counter (0 for absent keys). -/
def countLookup : List (String × Nat) → String → Nat
  | [], _ => 0
  | p :: rest, c => if p.1 = c then p.2 else countLookup rest c

/-- Stable descending insertion by key `f`: `x` is placed before the first
element whose key is ≤ its own, hence after all strictly-greater keys and
before all equal keys coming from later positions. -/
def insDescBy {α : Type} (f : α → Nat) (x : α) : List α → List α
  | [] => [x]
  | y :: ys => if f y ≤ f x then x :: y :: ys else y :: insDescBy f x ys

/-- Stable descending sort by key `f`: the semantics of Python's
`sorted(l, key=f, reverse=True)` (and of `Counter.most_common`). -/
def sortDescBy {α : Type} (f : α → Nat) (l : List α) : List α :=
  l.foldr (insDescBy f) []

/-- The category section of `write_summary`: `Counter(categories).most_common()`. -/
def categoryBreakdown (rows : List Record) : List (String × Nat) :=
  sortDescBy Prod.snd (counterList (rows.map Record.category))

theorem mem_insDescBy {α : Type} (f : α → Nat) (x : α) : ∀ (l : List α) (b : α),
    b ∈ insDescBy f x l ↔ b = x ∨ b ∈ l := by
  intro l
  induction l with
  | nil => intro b; simp [insDescBy]
  | cons y ys ih =>
    intro b
    simp only [insDescBy]
    by_cases h : f y ≤ f x
    · rw [if_pos h]
      simp [List.mem_cons]
    · rw [if_neg h]
      simp only [List.mem_cons, ih b]
      tauto

theorem insDescBy_pairwise {α : Type} (f : α → Nat) (x : α) : ∀ l : List α,
    l.Pairwise (fun a b => f b ≤ f a) →
    (insDescBy f x l).Pairwise (fun a b => f b ≤ f a) := by
  intro l
  induction l with
  | nil => intro _; simp [insDescBy]
  | cons y ys ih =>
    intro hp
    rcases List.pairwise_cons.mp hp with ⟨hy, hys⟩
    simp only [insDescBy]
    by_cases h : f y ≤ f x
    · rw [if_pos h]
      refine List.pairwise_cons.mpr ⟨?_, hp⟩
      intro b hb
      rcases List.mem_cons.mp hb with he | hm
      · subst he; exact h
      · exact le_trans (hy b hm) h
    · rw [if_neg h]
      refine List.pairwise_cons.mpr ⟨?_, ih hys⟩
      intro b hb
      rcases (mem_insDescBy f x ys b).mp hb with he | hm
      · subst he; omega
      · exact hy b hm

theorem insDescBy_perm {α : Type} (f : α → Nat) (x : α) : ∀ l : List α,
    (insDescBy f x l).Perm (x :: l) := by
  intro l
  induction l with
  | nil => exact List.Perm.refl _
  | cons y ys ih =>
    simp only [insDescBy]
    by_cases h : f y ≤ f x
    · rw [if_pos h]
    · rw [if_neg h]
      exact List.Perm.trans (ih.cons y) (List.Perm.swap x y ys)

theorem sortDescBy_pairwise {α : Type} (f : α → Nat) : ∀ l : List α,
    (sortDescBy f l).Pairwise (fun a b => f b ≤ f a) := by
  intro l
  induction l with
  | nil => simp [sortDescBy]
  | cons a rest ih =>
    have step : sortDescBy f (a :: rest) = insDescBy f a (sortDescBy f rest) := rfl
    rw [step]
    exact insDescBy_pairwise f a _ ih

theorem sortDescBy_perm {α : Type} (f : α → Nat) : ∀ l : List α,
    (sortDescBy f l).Perm l := by
  intro l
  induction l with
  | nil => exact List.Perm.refl _
  | cons a rest ih =>
    have step : sortDescBy f (a :: rest) = insDescBy f a (sortDescBy f rest) := rfl
    rw [step]
    exact List.Perm.trans (insDescBy_perm f a _) (ih.cons a)

theorem insDescBy_filter_eq {α : Type} (f : α → Nat) (n : Nat) (x : α)
    (hx : f x = n) : ∀ l : List α,
    (insDescBy f x l).filter (fun a => f a == n) =
      x :: l.filter (fun a => f a == n) := by
  intro l
  induction l with
  | nil => simp [insDescBy, List.filter_cons, hx]
  | cons y ys ih =>
    simp only [insDescBy]
    by_cases h : f y ≤ f x
    · rw [if_pos h]
      simp [List.filter_cons, hx]
    · rw [if_neg h]
      have hy : ¬f y = n := by omega
      simp [List.filter_cons, hy, ih]

theorem insDescBy_filter_ne {α : Type} (f : α → Nat) (n : Nat) (x : α)
    (hx : ¬f x = n) : ∀ l : List α,
    (insDescBy f x l).filter (fun a => f a == n) =
      l.filter (fun a => f a == n) := by
  intro l
  induction l with
  | nil => simp [insDescBy, List.filter_cons, hx]
  | cons y ys ih =>
    simp only [insDescBy]
    by_cases h : f y ≤ f x
    · rw [if_pos h]
      simp [List.filter_cons, hx]
    · rw [if_neg h]
      by_cases hy : f y = n <;> simp [List.filter_cons, hy, ih]

theorem sortDescBy_filter {α : Type} (f : α → Nat) (n : Nat) : ∀ l : List α,
    (sortDescBy f l).filter (fun a => f a == n) =
      l.filter (fun a => f a == n) := by
  intro l
  induction l with
  | nil => rfl
  | cons a rest ih =>
    have step : sortDescBy f (a :: rest) = insDescBy f a (sortDescBy f rest) := rfl
    rw [step]
    by_cases ha : f a = n
    · rw [insDescBy_filter_eq f n a ha, ih]
      simp [List.filter_cons, ha]
    · rw [insDescBy_filter_ne f n a ha, ih]
      simp [List.filter_cons, ha]

theorem bump_keys (c : String) : ∀ m : List (String × Nat),
    (bump m c).map Prod.fst =
      if c ∈ m.map Prod.fst then m.map Prod.fst else m.map Prod.fst ++ [c] := by
  intro m
  induction m with
  | nil => simp [bump]
  | cons p rest ih =>
    simp only [bump]
    by_cases h : p.1 = c
    · rw [if_pos h]
      simp [List.mem_cons, h.symm]
    · rw [if_neg h]
      have h2 : ¬c = p.1 := fun e => h e.symm
      simp only [List.map_cons, ih, List.mem_cons, h2, false_or]
      by_cases hc : c ∈ rest.map Prod.fst <;> simp [hc]

theorem counterList_keys_aux (l : List String) : ∀ m : List (String × Nat),
    (l.foldl bump m).map Prod.fst =
      m.map Prod.fst ++ dedupFirstAux (m.map Prod.fst) l := by
  induction l with
  | nil => intro m; simp [dedupFirstAux]
  | cons x xs ih =>
    intro m
    have step : (x :: xs).foldl bump m = xs.foldl bump (bump m x) := rfl
    rw [step, ih (bump m x), bump_keys]
    simp only [dedupFirstAux]
    by_cases hc : x ∈ m.map Prod.fst
    · rw [if_pos hc, if_pos hc]
    · rw [if_neg hc, if_neg hc]
      have hcongr : dedupFirstAux (m.map Prod.fst ++ [x]) xs =
          dedupFirstAux (x :: m.map Prod.fst) xs := by
        apply dedupFirstAux_congr
        intro y
        simp [List.mem_append, List.mem_cons, or_comm]
      rw [hcongr, List.append_assoc]
      simp

theorem counterList_keys (l : List String) :
    (counterList l).map Prod.fst = dedupFirst l := by
  have h := counterList_keys_aux l []
  simpa [counterList, dedupFirst] using h

theorem bump_countLookup (c : String) : ∀ (m : List (String × Nat)) (x : String),
    countLookup (bump m c) x =
      if c = x then countLookup m x + 1 else countLookup m x := by
  intro m
  induction m with
  | nil =>
    intro x
    simp [bump, countLookup]
  | cons p rest ih =>
    intro x
    simp only [bump]
    by_cases h : p.1 = c
    · rw [if_pos h]
      by_cases h2 : c = x
      · have h3 : p.1 = x := h.trans h2
        simp [countLookup, h3, h2]
      · have h3 : ¬p.1 = x := fun e => h2 (h.symm.trans e)
        simp [countLookup, h3, h2]
    · rw [if_neg h]
      by_cases h3 : p.1 = x
      · have h2 : ¬c = x := fun e => h (h3.trans e.symm)
        simp [countLookup, h3, h2]
      · simp only [countLookup, h3, if_false, ih x]

theorem counterList_count_aux (l : List String) :
    ∀ (m : List (String × Nat)) (c : String),
    countLookup (l.foldl bump m) c = countLookup m c + l.count c := by
  induction l with
  | nil => intro m c; simp
  | cons x xs ih =>
    intro m c
    have step : (x :: xs).foldl bump m = xs.foldl bump (bump m x) := rfl
    rw [step, ih (bump m x) c, bump_countLookup]
    rw [List.count_cons]
    by_cases h : x = c
    · simp only [h, if_pos rfl]
      have hb : (c == c) = true := beq_self_eq_true c
      simp [hb]
      omega
    · rw [if_neg h]
      have hb : (x == c) = false := by
        cases hx : x == c
        · rfl
        · exact absurd (by simpa using hx) h
      simp [hb]

theorem counterList_count (l : List String) (c : String) :
    countLookup (counterList l) c = l.count c := by
  have h := counterList_count_aux l [] c
  simpa [counterList, countLookup] using h

theorem countLookup_of_mem : ∀ m : List (String × Nat),
    (m.map Prod.fst).Nodup → ∀ (c : String) (n : Nat),
    (c, n) ∈ m → countLookup m c = n := by
  intro m
  induction m with
  | nil => intro _ c n h; simp at h
  | cons p rest ih =>
    intro hnd c n hm
    rcases List.mem_cons.mp hm with he | hr
    · have h1 : p.1 = c := by rw [← he]
      have h2 : p.2 = n := by rw [← he]
      simp [countLookup, h1, h2]
    · have hnd2 : (∀ x : Nat, (p.1, x) ∉ rest) ∧ (rest.map Prod.fst).Nodup := by
        simpa using hnd
      have h3 : ¬p.1 = c := fun e => hnd2.1 n (by rw [e]; exact hr)
      simp only [countLookup, h3, if_false]
      exact ih hnd2.2 c n hr

theorem mem_of_key_mem : ∀ m : List (String × Nat), ∀ c : String,
    c ∈ m.map Prod.fst → (c, countLookup m c) ∈ m := by
  intro m
  induction m with
  | nil => intro c h; simp at h
  | cons p rest ih =>
    intro c hc
    by_cases h : p.1 = c
    · have hv : countLookup (p :: rest) c = p.2 := by simp [countLookup, h]
      rw [hv]
      have hp : (c, p.2) = p := by rw [← h]
      rw [hp]
      exact List.mem_cons_self p rest
    · have hc2 : c = p.1 ∨ ∃ x : Nat, (c, x) ∈ rest := by simpa using hc
      rcases hc2 with he | ⟨x, hx⟩
      · exact absurd he.symm h
      · have hk : c ∈ rest.map Prod.fst := List.mem_map.mpr ⟨(c, x), hx, rfl⟩
        simp only [countLookup, h, if_false]
        exact List.mem_cons_of_mem p (ih c hk)

/-- A concrete record with category "SIMRS" (first of the C6 example). -/
def recCatS1 : Record :=
  ⟨"q", "a", "o/a", "u", "SIMRS", "", "", 0, 0, 0, "", "", ""⟩

/-- A concrete record with category "Obat" (second of the C6 example). -/
def recCatO : Record :=
  ⟨"q", "b", "o/b", "u", "Obat", "", "", 0, 0, 0, "", "", ""⟩

/-- A concrete record with category "SIMRS" (third of the C6 example). -/
def recCatS2 : Record :=
  ⟨"q", "c", "o/c", "u", "SIMRS", "", "", 0, 0, 0, "", "", ""⟩

/-- C6: the category breakdown of the summary lists exactly the categories
present among the records, each with its multiplicity, in descending order
of count with ties kept in first-encountered category order (the breakdown
is the stable descending sort of the first-encounter counter: its counts are
pairwise descending and, for every count value, the entries carrying it
appear exactly as in the first-encounter counter); in particular for records
with categories [SIMRS, Obat, SIMRS] the breakdown is
[("SIMRS", 2), ("Obat", 1)] — "SIMRS: 2" precedes "Obat: 1". -/
theorem category_breakdown_correct :
    (∀ rows : List Record,
      (categoryBreakdown rows).Pairwise (fun a b => b.2 ≤ a.2)) ∧
    (∀ (rows : List Record) (n : Nat),
      (categoryBreakdown rows).filter (fun e => e.2 == n) =
        (counterList (rows.map Record.category)).filter (fun e => e.2 == n)) ∧
    (∀ rows : List Record,
      (counterList (rows.map Record.category)).map Prod.fst =
        dedupFirst (rows.map Record.category)) ∧
    (∀ (rows : List Record) (c : String) (n : Nat),
      (c, n) ∈ categoryBreakdown rows ↔
        (c ∈ rows.map Record.category ∧
          n = (rows.map Record.category).count c)) ∧
    categoryBreakdown [recCatS1, recCatO, recCatS2] =
      [("SIMRS", 2), ("Obat", 1)] := by
  refine ⟨?_, ?_, ?_, ?_, ?_⟩
  · intro rows
    exact sortDescBy_pairwise Prod.snd _
  · intro rows n
    exact sortDescBy_filter Prod.snd n _
  · intro rows
    exact counterList_keys _
  · intro rows c n
    constructor
    · intro hmem
      have hc : (c, n) ∈ counterList (rows.map Record.category) :=
        (sortDescBy_perm Prod.snd _).mem_iff.mp hmem
      have hkey : c ∈ (counterList (rows.map Record.category)).map Prod.fst :=
        List.mem_map.mpr ⟨(c, n), hc, rfl⟩
      have hnd : ((counterList (rows.map Record.category)).map Prod.fst).Nodup := by
        rw [counterList_keys]
        exact dedupFirst_nodup _
      have hcount := countLookup_of_mem _ hnd c n hc
      refine ⟨?_, ?_⟩
      · rw [counterList_keys] at hkey
        exact (mem_dedupFirst_iff _ c).mp hkey
      · rw [← hcount, counterList_count]
    · rintro ⟨hc, hn⟩
      have hkey : c ∈ (counterList (rows.map Record.category)).map Prod.fst := by
        rw [counterList_keys]
        exact (mem_dedupFirst_iff _ c).mpr hc
      have hpair := mem_of_key_mem _ c hkey
      rw [counterList_count] at hpair
      rw [hn]
      exact (sortDescBy_perm Prod.snd _).mem_iff.mpr hpair
  · decide

/-- First Obat-classifiable item of the C7 scenario. -/
def itemObat1 : Item :=
  ⟨some "o/p1", "daftar obat", "u1", some "obat generik", some "Python",
    5, 0, 0, "2020", "2021", []⟩

/-- The C7 item with no identifier (`full_name` missing). -/
def itemNoId : Item :=
  ⟨none, "obat data", "u2", some "katalog obat", none, 1, 0, 0, "2020", "2021", []⟩

/-- Second Obat-classifiable item of the C7 scenario. -/
def itemObat2 : Item :=
  ⟨some "o/p2", "apotek", "u3", some "stok obat", none, 3, 0, 0, "2020", "2021", []⟩

/-- The single-query C7 client: one page of three items, two classifiable as
Obat and one with no identifier. -/
def clientC7 : String → Nat → Option (List Item) := fun _ p =>
  if p = 1 then some [itemObat1, itemNoId, itemObat2] else some []

/-- C7: an item with a falsy identifier contributes nothing to the
accumulator; a category appears in the breakdown only when some record
carries it (no zero-count lines); and concretely, the run over one page of
3 items — two Obat, one identifier-less — yields exactly 2 records and the
breakdown [("Obat", 2)], with no "General Healthcare" entry. -/
theorem skip_no_id_and_no_zero_categories :
    (∀ (query : String) (acc : List (String × Record)) (item : Item)
      (rest : List Item), truthyStr item.full_name = false →
      insertAll acc (validPairs query (item :: rest)) =
        insertAll acc (validPairs query rest)) ∧
    (∀ (rows : List Record) (c : String) (n : Nat),
      (c, n) ∈ categoryBreakdown rows → c ∈ rows.map Record.category) ∧
    (fetch_rows clientC7 ["test"] 1200 10).length = 2 ∧
    categoryBreakdown (fetch_rows clientC7 ["test"] 1200 10) =
      [("Obat", 2)] := by
  refine ⟨?_, ?_, ?_, ?_⟩
  · intro query acc item rest h
    simp [validPairs, List.filterMap_cons, h]
  · intro rows c n hmem
    have hc : (c, n) ∈ counterList (rows.map Record.category) :=
      (sortDescBy_perm Prod.snd _).mem_iff.mp hmem
    have hkey : c ∈ (counterList (rows.map Record.category)).map Prod.fst :=
      List.mem_map.mpr ⟨(c, n), hc, rfl⟩
    rw [counterList_keys] at hkey
    exact (mem_dedupFirst_iff _ c).mp hkey
  · decide
  · decide

/-- Witness for C7 at concrete inputs: the identifier-less item contributes
nothing, and an entry of the breakdown always names a present category. -/
theorem skip_no_id_and_no_zero_categories_witness :
    insertAll [] (validPairs "test" [itemNoId]) =
      insertAll [] (validPairs "test" []) ∧
    "Obat" ∈ [recCatO].map Record.category :=
  ⟨skip_no_id_and_no_zero_categories.1 "test" [] itemNoId [] (by decide),
    skip_no_id_and_no_zero_categories.2.1 [recCatO] "Obat" 1 (by decide)⟩

/-- The fixed CSV field list of `write_csv` (source lines 119–133). -/
def headerFields : List String :=
  ["source_query", "name", "full_name", "url", "category", "description",
    "language", "stars", "forks", "open_issues", "created_at", "updated_at",
    "topics"]

/-- The values of one record in header order, numbers rendered in decimal,
as `csv.DictWriter` writes them. -/
def recordFields (r : Record) : List String :=
  [r.source_query, r.name, r.full_name, r.url, r.category, r.description,
    r.language, toString r.stars, toString r.forks, toString r.open_issues,
    r.created_at, r.updated_at, r.topics]

/-- QUOTE_MINIMAL: a field is quoted when it holds the delimiter, the quote
character, or a line-terminator character. -/
def csvNeedsQuote (s : String) : Bool :=
  s.data.any (fun c => c = ',' || c = '"' || c = '\r' || c = '\n')

/-- Double every quote character of the field. -/
def csvEscape (s : String) : String :=
  ⟨s.data.foldr (fun c acc => if c = '"' then '"' :: '"' :: acc else c :: acc) []⟩

/-- Render one field per the standard delimited-text quoting rules. -/
def csvField (s : String) : String :=
  if csvNeedsQuote s then "\"" ++ csvEscape s ++ "\"" else s

/-- One CSV row: comma-joined escaped fields plus the CRLF terminator
`csv.writer` emits. -/
def csvLine (fields : List String) : String :=
  String.intercalate "," (fields.map csvField) ++ "\r\n"

/-- The file content `write_csv` produces: a lone newline for an empty row
list, otherwise the header row followed by one row per record, written
sequentially. -/
def write_csv_content (rows : List Record) : String :=
  if rows.isEmpty then "\n"
  else rows.foldl (fun acc r => acc ++ csvLine (recordFields r))
    (csvLine headerFields)

theorem string_join_cons (a : String) (l : List String) :
    String.join (a :: l) = a ++ String.join l := by
  cases a with
  | mk d =>
    rw [String.join_eq, String.join_eq]
    rfl

theorem string_foldl_append (g : Record → String) : ∀ (l : List Record)
    (s : String),
    l.foldl (fun acc r => acc ++ g r) s = s ++ String.join (l.map g) := by
  intro l
  induction l with
  | nil => intro s; simp [String.join]
  | cons x xs ih =>
    intro s
    have step : (x :: xs).foldl (fun acc r => acc ++ g r) s =
        xs.foldl (fun acc r => acc ++ g r) (s ++ g x) := rfl
    rw [step, ih (s ++ g x)]
    rw [List.map_cons, string_join_cons, String.append_assoc]

/-- C8: `write_csv` on an empty record list writes a file whose whole
content is one newline character — no header row — and on a non-empty list
writes the fixed header line followed by exactly one CSV row per record, in
order. -/
theorem write_csv_empty_and_rows :
    write_csv_content [] = "\n" ∧
    ∀ (r : Record) (rs : List Record),
      write_csv_content (r :: rs) =
        csvLine headerFields ++
          String.join ((r :: rs).map (fun x => csvLine (recordFields x))) := by
  constructor
  · rfl
  · intro r rs
    have hne : (r :: rs).isEmpty = false := rfl
    simp only [write_csv_content, hne, Bool.false_eq_true, if_false]
    exact string_foldl_append (fun x => csvLine (recordFields x)) (r :: rs) _

/-- The file content `write_summary` produces: title, target vs collected
counts, category breakdown, top-15 languages, top-20 by stars (stable
descending sort, `row["language"] or "Unknown"` defaulting). -/
def write_summary_content (rows : List Record) (target : Nat) : String :=
  let by_language :=
    counterList (rows.map (fun r => if r.language = "" then "Unknown" else r.language))
  let top_starred := (sortDescBy Record.stars rows).take 20
  "# Ringkasan Pengumpulan GitHub Healthcare Repositories\n\n" ++
  "- Target entri: **" ++ toString target ++ "**\n" ++
  "- Total entri terkumpul: **" ++ toString rows.length ++ "**\n\n" ++
  "## Distribusi Kategori\n" ++
  String.join ((categoryBreakdown rows).map
    (fun p => "- " ++ p.1 ++ ": " ++ toString p.2 ++ "\n")) ++
  "\n## Top Bahasa Pemrograman\n" ++
  String.join (((sortDescBy Prod.snd by_language).take 15).map
    (fun p => "- " ++ p.1 ++ ": " ++ toString p.2 ++ "\n")) ++
  "\n## Top 20 Repository Berdasarkan Stars\n" ++
  String.join (top_starred.map
    (fun r => "- [" ++ r.full_name ++ "](" ++ r.url ++ ") — ⭐ " ++
      toString r.stars ++ " — " ++ r.category ++ "\n"))

/-- The observable outcome of one `main` run: the process exit code, the
contents written to the CSV and summary files (`none` when the file is never
written), and whether the under-target warning was printed. -/
structure MainResult where
  exitCode : Nat
  csvOut : Option String
  summaryOut : Option String
  warned : Bool
deriving DecidableEq

/-- The source's `main` (lines 183–206) with collection abstracted by its outcome:
a raised error is caught, reported and turned into exit code 1 before any
file is touched; a returned row list is written to both files, the warning
is printed exactly when the collected count falls short of the target, and
the exit code is 0. -/
def mainModel (outcome : Except String (List Record)) (target : Nat) :
    MainResult :=
  match outcome with
  | Except.error _ => ⟨1, none, none, false⟩
  | Except.ok rows =>
    ⟨0, some (write_csv_content rows), some (write_summary_content rows target),
      decide (rows.length < target)⟩

/-- C9: a fatal collection error yields exit code 1 with neither output file
written; a completed collection — under-target included — writes both output
files, warns exactly when under target, and exits with code 0. -/
theorem main_exit_codes_and_outputs :
    ∀ (outcome : Except String (List Record)) (target : Nat),
    (∀ e : String, outcome = Except.error e →
      (mainModel outcome target).exitCode = 1 ∧
      (mainModel outcome target).csvOut = none ∧
      (mainModel outcome target).summaryOut = none) ∧
    (∀ rows : List Record, outcome = Except.ok rows →
      (mainModel outcome target).exitCode = 0 ∧
      (mainModel outcome target).csvOut = some (write_csv_content rows) ∧
      (mainModel outcome target).summaryOut =
        some (write_summary_content rows target) ∧
      (mainModel outcome target).warned = decide (rows.length < target)) := by
  intro outcome target
  constructor
  · intro e he
    subst he
    exact ⟨rfl, rfl, rfl⟩
  · intro rows hr
    subst hr
    exact ⟨rfl, rfl, rfl, rfl⟩

/-- Witness for C9 at concrete outcomes: a failed run exits 1 with no CSV
written; a successful empty run exits 0 with both files written despite
being under target (warning only). -/
theorem main_exit_codes_and_outputs_witness :
    (mainModel (Except.error "boom") 5).exitCode = 1 ∧
    (mainModel (Except.error "boom") 5).csvOut = none ∧
    (mainModel (Except.ok []) 5).exitCode = 0 ∧
    (mainModel (Except.ok []) 5).summaryOut =
      some (write_summary_content [] 5) ∧
    (mainModel (Except.ok []) 5).warned = true :=
  ⟨((main_exit_codes_and_outputs (Except.error "boom") 5).1 "boom" rfl).1,
    ((main_exit_codes_and_outputs (Except.error "boom") 5).1 "boom" rfl).2.1,
    ((main_exit_codes_and_outputs (Except.ok []) 5).2 [] rfl).1,
    ((main_exit_codes_and_outputs (Except.ok []) 5).2 [] rfl).2.2.1,
    by
      have h := ((main_exit_codes_and_outputs (Except.ok []) 5).2 [] rfl).2.2.2
      simpa using h⟩
